import Mathlib

/-!
Shallow embedding of the pngme PNG-chunk library (src/chunk_type.rs,
src/chunk.rs, and the container declared as `mod png`).

Machine integers are modelled as `Nat` with explicit `% 2 ^ 32` where the
Rust code performs `u32` arithmetic or `as u32` casts.  Byte buffers are
`List Nat`; the `u8` typing of Rust buffers appears as hypotheses
`∀ x ∈ v, x < 256` on theorems.  Fallible operations return `Except`.
-/

set_option maxRecDepth 10000

namespace Pngme

/-- Decidable equality for `Except`, used to evaluate parse results on
concrete inputs. -/
instance {ε α : Type} [DecidableEq ε] [DecidableEq α] :
    DecidableEq (Except ε α) := fun x y =>
  match x, y with
  | .ok a, .ok b =>
    if h : a = b then .isTrue (congrArg Except.ok h)
    else .isFalse fun hc => h (Except.ok.inj hc)
  | .error a, .error b =>
    if h : a = b then .isTrue (congrArg Except.error h)
    else .isFalse fun hc => h (Except.error.inj hc)
  | .ok _, .error _ => .isFalse fun hc => Except.noConfusion hc
  | .error _, .ok _ => .isFalse fun hc => Except.noConfusion hc

/-! ## chunk_type.rs -/

/-- `ParseChunkTypeError` from src/chunk_type.rs.  `invalidByte` stores the
offending character's code point. -/
inductive ParseChunkTypeError where
  | invalidLength (found : Nat)
  | invalidByte (c : Nat)
  | parseSliceError
deriving DecidableEq

/-- `ChunkType([u8; 4])` from src/chunk_type.rs, with the four bytes as
named fields. -/
structure ChunkType where
  t0 : Nat
  t1 : Nat
  t2 : Nat
  t3 : Nat
deriving DecidableEq

/-- `ChunkType::bytes` — the stored 4 bytes. -/
def ChunkType.bytes (ct : ChunkType) : List Nat := [ct.t0, ct.t1, ct.t2, ct.t3]

/-- Rust `u8::is_ascii_uppercase`. -/
def isAsciiUppercase (b : Nat) : Bool := 65 ≤ b && b ≤ 90

/-- Rust `u8::is_ascii_lowercase`. -/
def isAsciiLowercase (b : Nat) : Bool := 97 ≤ b && b ≤ 122

/-- `ChunkType::is_critical` — byte 0 uppercase. -/
def ChunkType.is_critical (ct : ChunkType) : Bool := isAsciiUppercase ct.t0

/-- `ChunkType::is_public` — byte 1 uppercase. -/
def ChunkType.is_public (ct : ChunkType) : Bool := isAsciiUppercase ct.t1

/-- `ChunkType::is_reserved_bit_valid` — byte 2 uppercase. -/
def ChunkType.is_reserved_bit_valid (ct : ChunkType) : Bool :=
  isAsciiUppercase ct.t2

/-- `ChunkType::is_safe_to_copy` — byte 3 lowercase. -/
def ChunkType.is_safe_to_copy (ct : ChunkType) : Bool := isAsciiLowercase ct.t3

/-- `ChunkType::is_valid` — defined in the source as exactly
`is_reserved_bit_valid`. -/
def ChunkType.is_valid (ct : ChunkType) : Bool := ct.is_reserved_bit_valid

/-- Rust std `char::is_alphabetic` (the Unicode `Alphabetic` property, not
restricted to ASCII), modelled exactly for code points below `0x100`:
the ASCII letters plus the Latin-1 letters `ª` (0xAA), `µ` (0xB5),
`º` (0xBA), `À`–`Ö`, `Ø`–`ö`, `ø`–`ÿ` (excluding `×` 0xD7 and `÷` 0xF7).
Inputs at or above `0x100` are outside the model. -/
def charIsAlphabetic (c : Nat) : Bool :=
  isAsciiUppercase c || isAsciiLowercase c ||
  c == 0xAA || c == 0xB5 || c == 0xBA ||
  (0xC0 ≤ c && c ≤ 0xD6) || (0xD8 ≤ c && c ≤ 0xF6) || (0xF8 ≤ c && c ≤ 0xFF)

/-- The `s.chars().map(...).collect::<Result<Vec<u8>, _>>()` stage of
`FromStr for ChunkType`: each alphabetic character is narrowed with
`as u8` (truncation mod 256); the first non-alphabetic character aborts
with `InvalidByte`. -/
def collectAlphaBytes : List Nat → Except ParseChunkTypeError (List Nat)
  | [] => .ok []
  | c :: rest =>
    if charIsAlphabetic c then
      match collectAlphaBytes rest with
      | .ok bs => .ok (c % 256 :: bs)
      | .error e => .error e
    else .error (.invalidByte c)

/-- `&[u8] → [u8; 4]` conversion (`try_into`) followed by
`ChunkType::try_from`, which always succeeds on a 4-byte array. -/
def chunkTypeFromArr : List Nat → Option ChunkType
  | [a, b, c, d] => some ⟨a, b, c, d⟩
  | _ => none

/-- `FromStr for ChunkType` (src/chunk_type.rs lines 36-51): collect the
alphabetic characters as bytes, then `as_slice().try_into()?`, whose
failure is `ParseSliceError`. -/
def ChunkType.from_str (s : List Nat) : Except ParseChunkTypeError ChunkType :=
  match collectAlphaBytes s with
  | .error e => .error e
  | .ok bs =>
    match chunkTypeFromArr bs with
    | none => .error .parseSliceError
    | some ct => .ok ct

/-! ## CRC-32/ISO-HDLC

The `crc` crate's `Crc::<u32>::new(&CRC_32_ISO_HDLC).checksum`:
reflected input/output, initial value all-ones, final XOR all-ones,
reversed polynomial `0xEDB88320`. -/

/-- The bit-reversed CRC-32 polynomial. -/
def crcPoly : Nat := 0xEDB88320

/-- One bit of the reflected CRC-32 update. -/
def crcBitStep (s : Nat) : Nat :=
  if s % 2 = 1 then (s / 2) ^^^ crcPoly else s / 2

/-- Eight bit-steps. -/
def crcBitStep8 (s : Nat) : Nat :=
  crcBitStep (crcBitStep (crcBitStep (crcBitStep
    (crcBitStep (crcBitStep (crcBitStep (crcBitStep s)))))))

/-- One byte of the reflected CRC-32 update: XOR the byte into the low
bits, then eight bit-steps. -/
def crcByteStep (s b : Nat) : Nat := crcBitStep8 (s ^^^ b)

/-- Run the CRC-32 state over a byte list. -/
def crcUpdate (s : Nat) : List Nat → Nat
  | [] => s
  | b :: rest => crcUpdate (crcByteStep s b) rest

/-- `checksum`: full CRC-32/ISO-HDLC of a byte list. -/
def crc32 (m : List Nat) : Nat := crcUpdate 0xFFFFFFFF m ^^^ 0xFFFFFFFF

/-! ## chunk.rs -/

/-- `ParseChunkError` from src/chunk.rs. -/
inductive ParseChunkError where
  | lengthNotFound
  | chunkTypeNotFound
  | messageNotFound
  | crcNotFound
  | invalidCrc
  | parseSliceError
  | parseChunkTypeError (e : ParseChunkTypeError)
deriving DecidableEq

/-- `Chunk` from src/chunk.rs: stored type, payload, length field and crc
field. -/
structure Chunk where
  chunk_type : ChunkType
  data : List Nat
  length : Nat
  crc : Nat
deriving DecidableEq

/-- Rust `slice.get(a..b)`: `None` when `a > b` or `b > len`. -/
def sliceGet (v : List Nat) (a b : Nat) : Option (List Nat) :=
  if a ≤ b ∧ b ≤ v.length then some ((v.drop a).take (b - a)) else none

/-- Rust `slice.get(a..)`: `None` when `a > len`. -/
def sliceGetFrom (v : List Nat) (a : Nat) : Option (List Nat) :=
  if a ≤ v.length then some (v.drop a) else none

/-- `&[u8] → [u8; 4]` conversion (`try_into`): succeeds exactly on
4-element slices. -/
def exact4 (l : List Nat) : Option (List Nat) :=
  if l.length = 4 then some l else none

/-- `u32::from_be_bytes` on a 4-byte list. -/
def fromBeBytes (l : List Nat) : Nat := l.foldl (fun acc b => acc * 256 + b) 0

/-- `u32::to_be_bytes`. -/
def u32ToBeBytes (n : Nat) : List Nat :=
  [n / 2 ^ 24 % 256, n / 2 ^ 16 % 256, n / 2 ^ 8 % 256, n % 256]

/-- `TryFrom<&Vec<u8>> for Chunk` (src/chunk.rs lines 32-70).  The index
`(length + 8) as usize` is computed by `u32` addition and therefore wraps
modulo `2 ^ 32`. -/
def Chunk.try_from (value : List Nat) : Except ParseChunkError Chunk :=
  match sliceGet value 0 4 with
  | none => .error .lengthNotFound
  | some s0 =>
    match exact4 s0 with
    | none => .error .parseSliceError
    | some lenB =>
      let length := fromBeBytes lenB
      match sliceGet value 4 8 with
      | none => .error .chunkTypeNotFound
      | some s1 =>
        match chunkTypeFromArr s1 with
        | none => .error .parseSliceError
        | some ct =>
          match sliceGet value 8 ((length + 8) % 2 ^ 32) with
          | none => .error .messageNotFound
          | some msg =>
            match sliceGetFrom value ((length + 8) % 2 ^ 32) with
            | none => .error .crcNotFound
            | some rest =>
              match exact4 rest with
              | none => .error .parseSliceError
              | some crcB =>
                let crc := fromBeBytes crcB
                let checkedCrc :=
                  crc32 ((value.drop 4).take ((length + 8) % 2 ^ 32 - 4))
                if crc ≠ checkedCrc then .error .invalidCrc
                else .ok ⟨ct, msg, length, crc⟩

/-- `Chunk::new` (src/chunk.rs lines 85-96): `length = data.len() as u32`,
`crc` over `chunk_type.bytes() ++ data`. -/
def Chunk.new (chunk_type : ChunkType) (data : List Nat) : Chunk :=
  { chunk_type := chunk_type
    data := data
    length := data.length % 2 ^ 32
    crc := crc32 (chunk_type.bytes ++ data) }

/-- The `Chunk::length` accessor: `self.data.len() as u32`, recomputed from
the live payload. -/
def Chunk.lengthAccessor (c : Chunk) : Nat := c.data.length % 2 ^ 32

/-- The `Chunk::crc` accessor: CRC-32 recomputed over
`chunk_type.bytes ++ data`. -/
def Chunk.crcAccessor (c : Chunk) : Nat := crc32 (c.chunk_type.bytes ++ c.data)

/-- `Chunk::as_bytes`: big-endian length, type bytes, payload, big-endian
crc — both `u32` fields serialized with `to_be_bytes`. -/
def Chunk.as_bytes (c : Chunk) : List Nat :=
  u32ToBeBytes c.length ++ c.chunk_type.bytes ++ c.data ++ u32ToBeBytes c.crc

/-! ## The container (`mod png`) -/

/-- Error type for container parsing.  Modelled from the spec: a
signature-mismatch error, or a propagated chunk parse error. -/
inductive PngParseError where
  | invalidSignature
  | chunkError (e : ParseChunkError)
deriving DecidableEq

/-- Modelled from the spec: the container holds a fixed signature plus an
ordered chunk sequence; only the sequence is state (src/png.rs is declared
by `mod png;` in src/main.rs but the file is absent from the sources). -/
structure Png where
  chunks : List Chunk
deriving DecidableEq

/-- The standard 8-byte PNG file signature. -/
def pngSignature : List Nat := [137, 80, 78, 71, 13, 10, 26, 10]

/-- Modelled from the spec: repeatedly parse chunks from the remaining
bytes until the buffer is exhausted, propagating any chunk parse error
immediately.  Each chunk occupies `L + 12` bytes where `L` is its declared
big-endian length; those bytes are handed to `Chunk.try_from`. -/
def parseChunkSeq : List Nat → Except ParseChunkError (List Chunk)
  | [] => .ok []
  | b :: rest =>
    match sliceGet (b :: rest) 0 4 with
    | none => .error .lengthNotFound
    | some lenB =>
      let L := fromBeBytes lenB
      match Chunk.try_from ((b :: rest).take (L + 12)) with
      | .error e => .error e
      | .ok c =>
        match parseChunkSeq ((b :: rest).drop (L + 12)) with
        | .error e => .error e
        | .ok cs => .ok (c :: cs)
termination_by v => v.length
decreasing_by
  simp only [List.length_drop, List.length_cons]
  omega

/-- Modelled from the spec: `TryFrom<&[u8]> for Png` verifies the 8-byte
signature, then parses the chunk sequence from the rest. -/
def Png.try_from (v : List Nat) : Except PngParseError Png :=
  if v.take 8 = pngSignature then
    match parseChunkSeq (v.drop 8) with
    | .error e => .error (.chunkError e)
    | .ok cs => .ok ⟨cs⟩
  else .error .invalidSignature

/-- Modelled from the spec: `Png::as_bytes` is the signature followed by
each chunk's serialization in stored order. -/
def Png.as_bytes (p : Png) : List Nat :=
  pngSignature ++ (p.chunks.map Chunk.as_bytes).flatten

/-! ## Concrete test vectors -/

/-- The chunk type `"RuSt"`. -/
def rustType : ChunkType := ⟨82, 117, 83, 116⟩

/-- The payload `"This is where your secret message will be!"` as bytes. -/
def secretMsg : List Nat :=
  "This is where your secret message will be!".data.map Char.toNat

/-- The invariant satisfied by every chunk the Rust program can hold:
byte-valued type and payload (`u8` typing), a length field equal to the
payload length, payload short enough that `length + 8` does not overflow
`u32`, and a crc field equal to the checksum of `type ++ payload`. -/
def ChunkWF (c : Chunk) : Prop :=
  (∀ x ∈ c.chunk_type.bytes, x < 256) ∧ (∀ x ∈ c.data, x < 256) ∧
  c.length = c.data.length ∧ c.data.length + 8 < 2 ^ 32 ∧
  c.crc = crc32 (c.chunk_type.bytes ++ c.data)

instance (c : Chunk) : Decidable (ChunkWF c) := by
  unfold ChunkWF
  infer_instance

/-- A payload of `2 ^ 32 - 8` zero bytes: the smallest payload length at
which `length + 8` wraps to `0` in `u32` arithmetic. -/
def hugePayload : List Nat := List.replicate (2 ^ 32 - 8) 0

/-- Concrete vectors used by witnesses. -/
def knownVector : List Nat :=
  u32ToBeBytes 42 ++ [82, 117, 83, 116] ++ secretMsg ++
    u32ToBeBytes 2882656334

/-- The chunk that `knownVector` parses to. -/
def knownChunk : Chunk := ⟨⟨82, 117, 83, 116⟩, secretMsg, 42, 2882656334⟩

/-! ## CRC-32 lemmas: GF(2)-linearity and single-bit sensitivity -/

theorem xor_div_two (a b : Nat) : (a ^^^ b) / 2 = a / 2 ^^^ b / 2 := by
  apply Nat.eq_of_testBit_eq
  intro i
  simp [Nat.testBit_div_two, Nat.testBit_xor]

theorem xor_mix (a b c d : Nat) :
    (a ^^^ b) ^^^ (c ^^^ d) = (a ^^^ c) ^^^ (b ^^^ d) := by
  apply Nat.eq_of_testBit_eq
  intro i
  simp only [Nat.testBit_xor]
  cases a.testBit i <;> cases b.testBit i <;> cases c.testBit i <;>
    cases d.testBit i <;> decide

theorem xor_cancel_right (a b : Nat) : (a ^^^ b) ^^^ b = a := by
  rw [Nat.xor_assoc, Nat.xor_self, Nat.xor_zero]

theorem crcBitStep_xor (a b : Nat) :
    crcBitStep (a ^^^ b) = crcBitStep a ^^^ crcBitStep b := by
  unfold crcBitStep
  have hab : (a ^^^ b) % 2 = (a + b) % 2 := Nat.xor_mod_two_eq
  rcases Nat.mod_two_eq_zero_or_one a with ha | ha <;>
    rcases Nat.mod_two_eq_zero_or_one b with hb | hb
  · rw [if_neg (by omega), if_neg (by omega), if_neg (by omega), xor_div_two]
  · rw [if_pos (by omega), if_neg (by omega), if_pos hb, xor_div_two,
      Nat.xor_assoc]
  · rw [if_pos (by omega), if_pos ha, if_neg (by omega), xor_div_two,
      Nat.xor_assoc, Nat.xor_comm (b / 2) crcPoly, ← Nat.xor_assoc]
  · rw [if_neg (by omega), if_pos ha, if_pos hb, xor_div_two, xor_mix,
      Nat.xor_self, Nat.xor_zero]

theorem crcBitStep8_xor (a b : Nat) :
    crcBitStep8 (a ^^^ b) = crcBitStep8 a ^^^ crcBitStep8 b := by
  simp [crcBitStep8, crcBitStep_xor]

theorem crcByteStep_xor (s t b c : Nat) :
    crcByteStep (s ^^^ t) (b ^^^ c) = crcByteStep s b ^^^ crcByteStep t c := by
  unfold crcByteStep
  rw [xor_mix, crcBitStep8_xor]

theorem crcUpdate_cons (s b : Nat) (l : List Nat) :
    crcUpdate s (b :: l) = crcUpdate (crcByteStep s b) l := rfl

theorem crcUpdate_xor (m : List Nat) :
    ∀ (n : List Nat) (s t : Nat), m.length = n.length →
      crcUpdate (s ^^^ t) (List.zipWith (· ^^^ ·) m n) =
        crcUpdate s m ^^^ crcUpdate t n := by
  induction m with
  | nil =>
    intro n s t h
    cases n with
    | nil => rfl
    | cons b n => exact absurd h (by simp)
  | cons a m ih =>
    intro n s t h
    cases n with
    | nil => exact absurd h (by simp)
    | cons b n =>
      rw [List.zipWith_cons_cons, crcUpdate_cons, crcUpdate_cons,
        crcUpdate_cons, crcByteStep_xor]
      exact ih n _ _ (by simpa using h)

theorem crcBitStep_inv (s : Nat) (h : s ≠ 0 ∧ s < 2 ^ 32) :
    crcBitStep s ≠ 0 ∧ crcBitStep s < 2 ^ 32 := by
  obtain ⟨h0, hlt⟩ := h
  unfold crcBitStep
  split
  · constructor
    · intro hc
      rw [Nat.xor_eq_zero] at hc
      have hp : crcPoly < 2 ^ 31 := by rw [← hc]; omega
      exact absurd hp (by decide)
    · exact Nat.xor_lt_two_pow (by omega) (by decide)
  · constructor <;> omega

theorem crcBitStep8_inv (s : Nat) (h : s ≠ 0 ∧ s < 2 ^ 32) :
    crcBitStep8 s ≠ 0 ∧ crcBitStep8 s < 2 ^ 32 := by
  unfold crcBitStep8
  exact crcBitStep_inv _ (crcBitStep_inv _ (crcBitStep_inv _ (crcBitStep_inv _
    (crcBitStep_inv _ (crcBitStep_inv _ (crcBitStep_inv _ (crcBitStep_inv _ h)))))))

theorem crcBitStep_zero : crcBitStep 0 = 0 := rfl

theorem crcByteStep_zero : crcByteStep 0 0 = 0 := rfl

theorem crcUpdate_replicate_zero :
    ∀ n : Nat, crcUpdate 0 (List.replicate n 0) = 0
  | 0 => rfl
  | n + 1 => by
    rw [List.replicate_succ, crcUpdate_cons, crcByteStep_zero]
    exact crcUpdate_replicate_zero n

theorem crcUpdate_replicate_zero_inv :
    ∀ (n : Nat) (s : Nat), s ≠ 0 ∧ s < 2 ^ 32 →
      crcUpdate s (List.replicate n 0) ≠ 0 ∧
        crcUpdate s (List.replicate n 0) < 2 ^ 32
  | 0, s, h => h
  | n + 1, s, h => by
    rw [List.replicate_succ, crcUpdate_cons]
    exact crcUpdate_replicate_zero_inv n _
      (by simpa [crcByteStep, Nat.xor_zero] using crcBitStep8_inv s h)

theorem crcUpdate_append (s : Nat) (m n : List Nat) :
    crcUpdate s (m ++ n) = crcUpdate (crcUpdate s m) n := by
  induction m generalizing s with
  | nil => rfl
  | cons a m ih => rw [List.cons_append, crcUpdate_cons, crcUpdate_cons]; exact ih _

theorem crcUpdate_single_bit (j r k : Nat) (hk : k < 32) :
    crcUpdate 0 (List.replicate j 0 ++ 2 ^ k :: List.replicate r 0) ≠ 0 := by
  rw [crcUpdate_append, crcUpdate_replicate_zero, crcUpdate_cons]
  have hb : crcByteStep 0 (2 ^ k) ≠ 0 ∧ crcByteStep 0 (2 ^ k) < 2 ^ 32 := by
    unfold crcByteStep
    rw [Nat.zero_xor]
    exact crcBitStep8_inv _
      ⟨Nat.pos_iff_ne_zero.mp (Nat.pos_pow_of_pos k (by omega)),
        Nat.pow_lt_pow_right (by omega) hk⟩
  exact (crcUpdate_replicate_zero_inv r _ hb).1

theorem zipWith_xor_self :
    ∀ l : List Nat, List.zipWith (· ^^^ ·) l l = List.replicate l.length 0
  | [] => rfl
  | a :: l => by
    rw [List.zipWith_cons_cons, List.length_cons, List.replicate_succ,
      Nat.xor_self, zipWith_xor_self l]

/-- Flipping a single bit of a single byte anywhere in a message changes
its CRC-32. -/
theorem crc32_flip_ne (pre suf : List Nat) (x k : Nat) (hk : k < 32) :
    crc32 (pre ++ x :: suf) ≠ crc32 (pre ++ (x ^^^ 2 ^ k) :: suf) := by
  intro hEq
  have hcu : crcUpdate 0xFFFFFFFF (pre ++ x :: suf) =
      crcUpdate 0xFFFFFFFF (pre ++ (x ^^^ 2 ^ k) :: suf) := by
    have := congrArg (fun z => z ^^^ 0xFFFFFFFF) hEq
    simpa only [crc32, xor_cancel_right] using this
  have hlen : (pre ++ x :: suf).length =
      (pre ++ (x ^^^ 2 ^ k) :: suf).length := by simp
  have hlin := crcUpdate_xor (pre ++ x :: suf) (pre ++ (x ^^^ 2 ^ k) :: suf)
    0xFFFFFFFF 0xFFFFFFFF hlen
  rw [hcu, Nat.xor_self, Nat.xor_self] at hlin
  have hzip : List.zipWith (· ^^^ ·) (pre ++ x :: suf)
      (pre ++ (x ^^^ 2 ^ k) :: suf) =
      List.replicate pre.length 0 ++ 2 ^ k :: List.replicate suf.length 0 := by
    rw [List.zipWith_append _ _ _ _ _ rfl]
    simp only [List.zipWith, zipWith_xor_self]
    congr 1
    rw [← Nat.xor_assoc, Nat.xor_self, Nat.zero_xor]
  rw [hzip] at hlin
  exact crcUpdate_single_bit pre.length suf.length k hk hlin

/-! ## Big-endian `u32` encoding lemmas -/

theorem exists_four_of_length_eq (l : List Nat) (h : l.length = 4) :
    ∃ a b c d, l = [a, b, c, d] := by
  rcases l with _ | ⟨a, _ | ⟨b, _ | ⟨c, _ | ⟨d, _ | ⟨e, t⟩⟩⟩⟩⟩
  · simp at h
  · simp at h
  · simp at h
  · simp at h
  · exact ⟨a, b, c, d, rfl⟩
  · simp at h

theorem fromBeBytes_four (a b c d : Nat) :
    fromBeBytes [a, b, c, d] = ((a * 256 + b) * 256 + c) * 256 + d := by
  simp [fromBeBytes]

theorem u32ToBeBytes_fromBeBytes (l : List Nat) (h4 : l.length = 4)
    (hb : ∀ x ∈ l, x < 256) : u32ToBeBytes (fromBeBytes l) = l := by
  obtain ⟨a, b, c, d, rfl⟩ := exists_four_of_length_eq l h4
  have ha : a < 256 := hb a (by simp)
  have hbb : b < 256 := hb b (by simp)
  have hcc : c < 256 := hb c (by simp)
  have hdd : d < 256 := hb d (by simp)
  rw [fromBeBytes_four]
  simp only [u32ToBeBytes, List.cons.injEq, and_true]
  refine ⟨by omega, by omega, by omega, by omega⟩

theorem fromBeBytes_lt (l : List Nat) (h4 : l.length = 4)
    (hb : ∀ x ∈ l, x < 256) : fromBeBytes l < 2 ^ 32 := by
  obtain ⟨a, b, c, d, rfl⟩ := exists_four_of_length_eq l h4
  have ha : a < 256 := hb a (by simp)
  have hbb : b < 256 := hb b (by simp)
  have hcc : c < 256 := hb c (by simp)
  have hdd : d < 256 := hb d (by simp)
  rw [fromBeBytes_four]
  omega

theorem fromBeBytes_u32ToBeBytes (n : Nat) (h : n < 2 ^ 32) :
    fromBeBytes (u32ToBeBytes n) = n := by
  simp only [u32ToBeBytes]
  rw [fromBeBytes_four]
  omega

theorem u32ToBeBytes_length (n : Nat) : (u32ToBeBytes n).length = 4 := rfl

theorem u32ToBeBytes_bytes_lt (n : Nat) : ∀ x ∈ u32ToBeBytes n, x < 256 := by
  intro x hx
  simp only [u32ToBeBytes, List.mem_cons, List.not_mem_nil, or_false] at hx
  rcases hx with rfl | rfl | rfl | rfl <;> omega

/-! ## Chunk parse: layout and stage lemmas -/

theorem exact4_some (l : List Nat) (h : l.length = 4) : exact4 l = some l := by
  rw [exact4, if_pos h]

theorem chunkTypeFromArr_four (a b c d : Nat) :
    chunkTypeFromArr [a, b, c, d] = some ⟨a, b, c, d⟩ := rfl

theorem sliceGet_some (v : List Nat) (a b : Nat) (hab : a ≤ b)
    (hb : b ≤ v.length) :
    sliceGet v a b = some ((v.drop a).take (b - a)) := by
  rw [sliceGet, if_pos ⟨hab, hb⟩]

theorem sliceGet_none (v : List Nat) (a b : Nat)
    (h : ¬(a ≤ b ∧ b ≤ v.length)) : sliceGet v a b = none := by
  rw [sliceGet, if_neg h]

theorem sliceGetFrom_some (v : List Nat) (a : Nat) (h : a ≤ v.length) :
    sliceGetFrom v a = some (v.drop a) := by
  rw [sliceGetFrom, if_pos h]

/-- The full behaviour of `Chunk.try_from` on a buffer in chunk layout
(4-byte length prefix consistent with the payload length, 4 type bytes,
payload, 4 CRC bytes): it reduces to the CRC comparison. -/
theorem try_from_layout (lenB : List Nat) (t0 t1 t2 t3 : Nat)
    (dat crcB : List Nat) (hlen : lenB.length = 4) (hcrc : crcB.length = 4)
    (hd : fromBeBytes lenB = dat.length) (hL : dat.length + 8 < 2 ^ 32) :
    Chunk.try_from (lenB ++ [t0, t1, t2, t3] ++ dat ++ crcB) =
      if fromBeBytes crcB = crc32 ([t0, t1, t2, t3] ++ dat)
      then .ok ⟨⟨t0, t1, t2, t3⟩, dat, dat.length, fromBeBytes crcB⟩
      else .error .invalidCrc := by
  have hfour : ([t0, t1, t2, t3] : List Nat).length = 4 := rfl
  set v : List Nat := lenB ++ [t0, t1, t2, t3] ++ dat ++ crcB with hv
  have hvlen : v.length = dat.length + 12 := by
    simp [hv, hlen, hcrc]
    omega
  have hdrop4 : v.drop 4 = [t0, t1, t2, t3] ++ (dat ++ crcB) := by
    rw [hv, List.append_assoc, List.append_assoc, List.drop_left' hlen]
  have hdrop8 : v.drop 8 = dat ++ crcB := by
    rw [show (8 : Nat) = 4 + 4 from rfl, ← List.drop_drop, hdrop4,
      List.drop_left' hfour]
  have h1 : sliceGet v 0 4 = some lenB := by
    rw [sliceGet_some v 0 4 (by omega) (by omega), List.drop_zero,
      Nat.sub_zero, hv, List.append_assoc, List.append_assoc,
      List.take_left' hlen]
  have h2 : sliceGet v 4 8 = some [t0, t1, t2, t3] := by
    rw [sliceGet_some v 4 8 (by omega) (by omega), hdrop4,
      show (8 : Nat) - 4 = 4 from rfl, List.take_left' hfour]
  have h3 : sliceGet v 8 (dat.length + 8) = some dat := by
    rw [sliceGet_some v 8 (dat.length + 8) (by omega) (by omega), hdrop8,
      Nat.add_sub_cancel, List.take_left' rfl]
  have h5 : sliceGetFrom v (dat.length + 8) = some crcB := by
    rw [sliceGetFrom_some v _ (by omega),
      show dat.length + 8 = 8 + dat.length from by omega, ← List.drop_drop,
      hdrop8, List.drop_left' rfl]
  have h6 : (v.drop 4).take (dat.length + 8 - 4) = [t0, t1, t2, t3] ++ dat := by
    rw [hdrop4, show dat.length + 8 - 4 = 4 + dat.length from by omega,
      List.take_add, List.take_left' hfour, List.drop_left' hfour,
      List.take_left' rfl]
  have hmod : (dat.length + 8) % 2 ^ 32 = dat.length + 8 :=
    Nat.mod_eq_of_lt (by omega)
  simp only [Chunk.try_from, h1, exact4_some lenB hlen, hd, hmod, h2,
    chunkTypeFromArr_four, h3, h5, exact4_some crcB hcrc, h6]
  rw [ite_not]

theorem crcBitStep_lt (s : Nat) (h : s < 2 ^ 32) : crcBitStep s < 2 ^ 32 := by
  unfold crcBitStep
  split
  · exact Nat.xor_lt_two_pow (by omega) (by decide)
  · omega

theorem crcBitStep8_lt (s : Nat) (h : s < 2 ^ 32) : crcBitStep8 s < 2 ^ 32 := by
  unfold crcBitStep8
  exact crcBitStep_lt _ (crcBitStep_lt _ (crcBitStep_lt _ (crcBitStep_lt _
    (crcBitStep_lt _ (crcBitStep_lt _ (crcBitStep_lt _ (crcBitStep_lt _ h)))))))

theorem crcUpdate_lt (m : List Nat) :
    ∀ s, s < 2 ^ 32 → (∀ b ∈ m, b < 256) → crcUpdate s m < 2 ^ 32 := by
  induction m with
  | nil => intro s hs _; exact hs
  | cons b m ih =>
    intro s hs hb
    rw [crcUpdate_cons]
    refine ih _ ?_ fun x hx => hb x (by simp [hx])
    exact crcBitStep8_lt _
      (Nat.xor_lt_two_pow hs (lt_trans (hb b (by simp)) (by norm_num)))

theorem crc32_lt (m : List Nat) (hb : ∀ b ∈ m, b < 256) : crc32 m < 2 ^ 32 :=
  Nat.xor_lt_two_pow (crcUpdate_lt m _ (by norm_num) hb) (by norm_num)

/-! ## Truncation-stage lemmas for `Chunk.try_from` -/

theorem exact4_none (l : List Nat) (h : l.length ≠ 4) : exact4 l = none := by
  rw [exact4, if_neg h]

theorem try_from_len_missing (v : List Nat) (h : v.length < 4) :
    Chunk.try_from v = .error .lengthNotFound := by
  simp only [Chunk.try_from, sliceGet_none v 0 4 (by omega)]

theorem try_from_type_missing (v : List Nat) (h4 : 4 ≤ v.length)
    (h8 : v.length < 8) : Chunk.try_from v = .error .chunkTypeNotFound := by
  have htake : ((v.drop 0).take (4 - 0)).length = 4 := by
    simp
    omega
  simp only [Chunk.try_from, sliceGet_some v 0 4 (by omega) (by omega),
    exact4_some _ htake, sliceGet_none v 4 8 (by omega)]

theorem take4_length (v : List Nat) (h4 : 4 ≤ v.length) :
    (v.take 4).length = 4 := by
  simp
  omega

theorem take4_lt (v : List Nat) (hB : ∀ x ∈ v, x < 256) :
    fromBeBytes (v.take 4) < 2 ^ 32 ∨ (v.take 4).length ≠ 4 := by
  by_cases h : (v.take 4).length = 4
  · exact Or.inl (fromBeBytes_lt _ h fun x hx => hB x (List.take_subset _ _ hx))
  · exact Or.inr h

theorem try_from_msg_missing (v : List Nat) (hB : ∀ x ∈ v, x < 256)
    (h8 : 8 ≤ v.length)
    (hw : v.length < fromBeBytes (v.take 4) + 8 ∨
      2 ^ 32 ≤ fromBeBytes (v.take 4) + 8) :
    Chunk.try_from v = .error .messageNotFound := by
  have htake : (v.take 4).length = 4 := take4_length v (by omega)
  have hL : fromBeBytes (v.take 4) < 2 ^ 32 :=
    fromBeBytes_lt _ htake fun x hx => hB x (List.take_subset _ _ hx)
  have e0 : (v.drop 0).take (4 - 0) = v.take 4 := by simp
  have htake' : ((v.drop 0).take (4 - 0)).length = 4 := by rw [e0]; exact htake
  have ht2 : ((v.drop 4).take (8 - 4)).length = 4 := by
    simp
    omega
  obtain ⟨a, b, c, d, he⟩ := exists_four_of_length_eq _ ht2
  have e2 : sliceGet v 4 8 = some [a, b, c, d] := by
    rw [sliceGet_some v 4 8 (by omega) (by omega), he]
  have e3 : sliceGet v 8 ((fromBeBytes (v.take 4) + 8) % 2 ^ 32) = none :=
    sliceGet_none _ _ _ (by omega)
  simp only [Chunk.try_from, sliceGet_some v 0 4 (by omega) (by omega),
    e0, exact4_some _ htake, e2, chunkTypeFromArr_four, e3]

theorem try_from_crc_slice (v : List Nat) (_hB : ∀ x ∈ v, x < 256)
    (hlow : fromBeBytes (v.take 4) + 8 ≤ v.length)
    (hwrap : fromBeBytes (v.take 4) + 8 < 2 ^ 32)
    (hne : v.length ≠ fromBeBytes (v.take 4) + 12) :
    Chunk.try_from v = .error .parseSliceError := by
  have h8 : 8 ≤ v.length := by omega
  have htake : (v.take 4).length = 4 := take4_length v (by omega)
  have e0 : (v.drop 0).take (4 - 0) = v.take 4 := by simp
  have htake' : ((v.drop 0).take (4 - 0)).length = 4 := by rw [e0]; exact htake
  have ht2 : ((v.drop 4).take (8 - 4)).length = 4 := by
    simp
    omega
  obtain ⟨a, b, c, d, he⟩ := exists_four_of_length_eq _ ht2
  have e2 : sliceGet v 4 8 = some [a, b, c, d] := by
    rw [sliceGet_some v 4 8 (by omega) (by omega), he]
  have hmod : (fromBeBytes (v.take 4) + 8) % 2 ^ 32 =
      fromBeBytes (v.take 4) + 8 := Nat.mod_eq_of_lt hwrap
  have e3 : sliceGet v 8 (fromBeBytes (v.take 4) + 8) =
      some ((v.drop 8).take (fromBeBytes (v.take 4) + 8 - 8)) :=
    sliceGet_some v 8 _ (by omega) (by omega)
  have e4 : sliceGetFrom v (fromBeBytes (v.take 4) + 8) =
      some (v.drop (fromBeBytes (v.take 4) + 8)) :=
    sliceGetFrom_some v _ (by omega)
  have e5 : exact4 (v.drop (fromBeBytes (v.take 4) + 8)) = none := by
    refine exact4_none _ ?_
    rw [List.length_drop]
    omega
  simp only [Chunk.try_from, sliceGet_some v 0 4 (by omega) (by omega),
    e0, exact4_some _ htake, e2, chunkTypeFromArr_four, hmod, e3, e4, e5]

/-- Inversion: a successful `Chunk.try_from` on a byte buffer determines
the buffer's exact layout and the chunk's field values. -/
theorem try_from_ok_inv (v : List Nat) (c : Chunk) (hB : ∀ x ∈ v, x < 256)
    (h : Chunk.try_from v = .ok c) :
    c.length = c.data.length ∧
    c.data.length + 8 < 2 ^ 32 ∧
    v.length = c.data.length + 12 ∧
    v = c.as_bytes ∧
    c.crc = crc32 (c.chunk_type.bytes ++ c.data) := by
  rcases Nat.lt_or_ge v.length 4 with h4 | h4
  · rw [try_from_len_missing v h4] at h
    exact absurd h (by simp)
  rcases Nat.lt_or_ge v.length 8 with h8 | h8
  · rw [try_from_type_missing v h4 h8] at h
    exact absurd h (by simp)
  have htake : (v.take 4).length = 4 := take4_length v (by omega)
  have hL : fromBeBytes (v.take 4) < 2 ^ 32 :=
    fromBeBytes_lt _ htake fun x hx => hB x (List.take_subset _ _ hx)
  rcases Nat.lt_or_ge v.length (fromBeBytes (v.take 4) + 8) with hm | hm
  · rw [try_from_msg_missing v hB h8 (Or.inl hm)] at h
    exact absurd h (by simp)
  rcases Nat.lt_or_ge (fromBeBytes (v.take 4) + 8) (2 ^ 32) with hw | hw
  swap
  · rw [try_from_msg_missing v hB h8 (Or.inr hw)] at h
    exact absurd h (by simp)
  by_cases hexact : v.length = fromBeBytes (v.take 4) + 12
  swap
  · rw [try_from_crc_slice v hB hm hw hexact] at h
    exact absurd h (by simp)
  -- exact-layout case: decompose the buffer and apply the layout lemma
  have hBlen : ((v.drop 4).take 4).length = 4 := by
    simp
    omega
  obtain ⟨a, b, c2, d2, hBe⟩ := exists_four_of_length_eq _ hBlen
  have hDlen : ((v.drop 8).take (fromBeBytes (v.take 4))).length =
      fromBeBytes (v.take 4) := by
    simp
    omega
  have hElen : (v.drop (8 + fromBeBytes (v.take 4))).length = 4 := by
    rw [List.length_drop]
    omega
  have hsplit : v = v.take 4 ++ [a, b, c2, d2] ++
      (v.drop 8).take (fromBeBytes (v.take 4)) ++
      v.drop (8 + fromBeBytes (v.take 4)) := by
    conv_lhs => rw [← List.take_append_drop 4 v]
    rw [List.append_assoc, List.append_assoc]
    congr 1
    conv_lhs => rw [← List.take_append_drop 4 (v.drop 4)]
    rw [List.drop_drop, hBe]
    congr 1
    conv_lhs =>
      rw [← List.take_append_drop (fromBeBytes (v.take 4)) (v.drop 8)]
    rw [List.drop_drop]
  have hlay := try_from_layout (v.take 4) a b c2 d2
    ((v.drop 8).take (fromBeBytes (v.take 4)))
    (v.drop (8 + fromBeBytes (v.take 4))) htake hElen
    (by rw [hDlen]) (by rw [hDlen]; omega)
  rw [hsplit, hlay] at h
  split at h
  swap
  · exact absurd h (by simp)
  · rename_i hc
    rw [Except.ok.injEq] at h
    subst h
    refine ⟨by rw [hDlen], by rw [hDlen]; omega, by simp only [hDlen]; omega,
      ?_, hc⟩
    have hcrcbytes : ∀ x ∈ v.drop (8 + fromBeBytes (v.take 4)), x < 256 :=
      fun x hx => hB x (List.drop_subset _ _ hx)
    have e1 : u32ToBeBytes ((v.drop 8).take (fromBeBytes (v.take 4))).length =
        v.take 4 := by
      rw [hDlen]
      exact u32ToBeBytes_fromBeBytes _ htake
        fun x hx => hB x (List.take_subset _ _ hx)
    have e2 : u32ToBeBytes
        (fromBeBytes (v.drop (8 + fromBeBytes (v.take 4)))) =
        v.drop (8 + fromBeBytes (v.take 4)) :=
      u32ToBeBytes_fromBeBytes _ hElen hcrcbytes
    simp only [Chunk.as_bytes, ChunkType.bytes]
    rw [e1, e2]
    exact hsplit

/-! ## Well-formed chunks and the serialization round trip -/

theorem as_bytes_length (c : Chunk) :
    c.as_bytes.length = c.data.length + 12 := by
  simp [Chunk.as_bytes, ChunkType.bytes, u32ToBeBytes]

theorem as_bytes_lt (c : Chunk) (hct : ∀ x ∈ c.chunk_type.bytes, x < 256)
    (hdat : ∀ x ∈ c.data, x < 256) : ∀ x ∈ c.as_bytes, x < 256 := by
  intro x hx
  simp only [Chunk.as_bytes, List.mem_append] at hx
  rcases hx with ((hx | hx) | hx) | hx
  · exact u32ToBeBytes_bytes_lt _ x hx
  · exact hct x hx
  · exact hdat x hx
  · exact u32ToBeBytes_bytes_lt _ x hx

theorem try_from_as_bytes (c : Chunk) (h : ChunkWF c) :
    Chunk.try_from c.as_bytes = .ok c := by
  obtain ⟨⟨a, b, c2, d2⟩, dat, len, crc⟩ := c
  simp only [ChunkWF, ChunkType.bytes] at h
  obtain ⟨hct, hdat, hlen, hbound, hcrc⟩ := h
  have hlenlt : len < 2 ^ 32 := by omega
  have hcrclt : crc < 2 ^ 32 := by
    rw [hcrc]
    refine crc32_lt _ fun x hx => ?_
    rcases List.mem_append.mp hx with hx | hx
    · exact hct x hx
    · exact hdat x hx
  have hfd : fromBeBytes (u32ToBeBytes len) = dat.length := by
    rw [fromBeBytes_u32ToBeBytes len hlenlt]
    exact hlen
  simp only [Chunk.as_bytes, ChunkType.bytes]
  rw [try_from_layout (u32ToBeBytes len) a b c2 d2 dat (u32ToBeBytes crc)
    (u32ToBeBytes_length len) (u32ToBeBytes_length crc) hfd hbound]
  rw [if_pos (by rw [fromBeBytes_u32ToBeBytes crc hcrclt]; exact hcrc)]
  rw [fromBeBytes_u32ToBeBytes crc hcrclt, ← hlen]

theorem new_wf (ct : ChunkType) (dat : List Nat)
    (hct : ∀ x ∈ ct.bytes, x < 256) (hdat : ∀ x ∈ dat, x < 256)
    (hbound : dat.length + 8 < 2 ^ 32) : ChunkWF (Chunk.new ct dat) := by
  refine ⟨hct, hdat, ?_, hbound, rfl⟩
  exact Nat.mod_eq_of_lt (by omega)

theorem ok_wf (v : List Nat) (c : Chunk) (hB : ∀ x ∈ v, x < 256)
    (h : Chunk.try_from v = .ok c) : ChunkWF c := by
  obtain ⟨hlen, hbound, _, hveq, hcrc⟩ := try_from_ok_inv v c hB h
  refine ⟨?_, ?_, hlen, hbound, hcrc⟩
  · intro x hx
    refine hB x ?_
    rw [hveq]
    simp only [Chunk.as_bytes, List.mem_append]
    tauto
  · intro x hx
    refine hB x ?_
    rw [hveq]
    simp only [Chunk.as_bytes, List.mem_append]
    tauto

/-! ## Container lemmas -/

theorem parseChunkSeq_nil : parseChunkSeq [] = .ok [] := by
  simp [parseChunkSeq]

theorem parseChunkSeq_cons (c : Chunk) (rest : List Nat) (hWF : ChunkWF c) :
    parseChunkSeq (c.as_bytes ++ rest) =
      (parseChunkSeq rest).map (List.cons c) := by
  obtain ⟨hct, hdat, hlen, hbound, hcrc⟩ := hWF
  have hablen : c.as_bytes.length = c.data.length + 12 := as_bytes_length c
  have hassoc : c.as_bytes ++ rest = u32ToBeBytes c.length ++
      (c.chunk_type.bytes ++ (c.data ++ (u32ToBeBytes c.crc ++ rest))) := by
    simp [Chunk.as_bytes, List.append_assoc]
  have htk4 : (c.as_bytes ++ rest).take 4 = u32ToBeBytes c.length := by
    rw [hassoc, List.take_left' (u32ToBeBytes_length _)]
  have hfrom : fromBeBytes ((c.as_bytes ++ rest).take 4) = c.data.length := by
    rw [htk4, fromBeBytes_u32ToBeBytes _ (by omega)]
    exact hlen
  have htake : (c.as_bytes ++ rest).take (c.data.length + 12) = c.as_bytes :=
    List.take_left' hablen
  have hdrop : (c.as_bytes ++ rest).drop (c.data.length + 12) = rest :=
    List.drop_left' hablen
  cases hv : c.as_bytes with
  | nil => rw [hv] at hablen; simp at hablen
  | cons b bs =>
    have hcons2 : (b :: (bs ++ rest) : List Nat) = c.as_bytes ++ rest := by
      rw [hv, List.cons_append]
    show parseChunkSeq (b :: (bs ++ rest)) =
      Except.map (List.cons c) (parseChunkSeq rest)
    rw [parseChunkSeq]
    simp only [hcons2,
      sliceGet_some (c.as_bytes ++ rest) 0 4 (by omega)
        (by rw [List.length_append, hablen]; omega),
      List.drop_zero, Nat.sub_zero, hfrom, htake,
      try_from_as_bytes c ⟨hct, hdat, hlen, hbound, hcrc⟩, hdrop]
    cases parseChunkSeq rest <;> rfl

theorem parseChunkSeq_flatten (cs : List Chunk) (h : ∀ c ∈ cs, ChunkWF c) :
    parseChunkSeq ((cs.map Chunk.as_bytes).flatten) = .ok cs := by
  induction cs with
  | nil => exact parseChunkSeq_nil
  | cons c cs ih =>
    rw [List.map_cons, List.flatten_cons,
      parseChunkSeq_cons c _ (h c (by simp)),
      ih fun d hd => h d (by simp [hd])]
    rfl

theorem png_try_from_as_bytes (p : Png) (h : ∀ c ∈ p.chunks, ChunkWF c) :
    Png.try_from p.as_bytes = .ok p := by
  obtain ⟨cs⟩ := p
  simp only [Png.as_bytes] at *
  rw [Png.try_from,
    if_pos (List.take_left' (show pngSignature.length = 8 from rfl)),
    List.drop_left' (show pngSignature.length = 8 from rfl),
    parseChunkSeq_flatten cs h]

/-! ## Further helper lemmas -/

theorem as_bytes_take4 (c : Chunk) :
    c.as_bytes.take 4 = u32ToBeBytes c.length := by
  have h : c.as_bytes = u32ToBeBytes c.length ++
      (c.chunk_type.bytes ++ (c.data ++ u32ToBeBytes c.crc)) := by
    simp [Chunk.as_bytes, List.append_assoc]
  rw [h, List.take_left' (u32ToBeBytes_length _)]

theorem chunkType_bytes_length (ct : ChunkType) : ct.bytes.length = 4 := rfl

/-- Layout lemma, mid-buffer form: when the stored CRC does not match the
checksum of the 4-byte-type-plus-payload region, parsing fails with
`InvalidCrc`. -/
theorem try_from_layout_mid_ne (lenB mid crcB : List Nat)
    (hlen : lenB.length = 4) (hcrc : crcB.length = 4) (hmid : 4 ≤ mid.length)
    (hd : fromBeBytes lenB = mid.length - 4) (hL : mid.length + 4 < 2 ^ 32)
    (hne : fromBeBytes crcB ≠ crc32 mid) :
    Chunk.try_from (lenB ++ mid ++ crcB) = .error .invalidCrc := by
  have htk : (mid.take 4).length = 4 := by
    simp
    omega
  obtain ⟨m0, m1, m2, m3, hm⟩ := exists_four_of_length_eq _ htk
  have hmsplit : mid = [m0, m1, m2, m3] ++ mid.drop 4 := by
    rw [← hm, List.take_append_drop]
  have hbuf : lenB ++ mid ++ crcB =
      lenB ++ [m0, m1, m2, m3] ++ mid.drop 4 ++ crcB := by
    conv_lhs => rw [hmsplit]
    simp [List.append_assoc]
  have hdlen : (mid.drop 4).length = mid.length - 4 := by simp
  rw [hbuf, try_from_layout lenB m0 m1 m2 m3 (mid.drop 4) crcB hlen hcrc
    (by rw [hd, hdlen]) (by rw [hdlen]; omega)]
  rw [if_neg (by rw [← hmsplit]; exact hne)]

/-- `CrcNotFound` is unreachable: whenever the payload read succeeds, the
tail slice `value.get((length + 8) as usize..)` also succeeds. -/
theorem try_from_ne_crcNotFound (v : List Nat) :
    Chunk.try_from v ≠ .error .crcNotFound := by
  intro h
  unfold Chunk.try_from at h
  cases h1 : sliceGet v 0 4 with
  | none => simp [h1] at h
  | some s0 =>
    cases h2 : exact4 s0 with
    | none => simp [h1, h2] at h
    | some lenB =>
      cases h3 : sliceGet v 4 8 with
      | none => simp [h1, h2, h3] at h
      | some s1 =>
        cases h4 : chunkTypeFromArr s1 with
        | none => simp [h1, h2, h3, h4] at h
        | some ct =>
          cases h5 : sliceGet v 8 ((fromBeBytes lenB + 8) % 4294967296) with
          | none => simp [h1, h2, h3, h4, h5] at h
          | some msg =>
            cases h6 : sliceGetFrom v ((fromBeBytes lenB + 8) % 4294967296) with
            | some rest =>
              cases h7 : exact4 rest with
              | none => simp [h1, h2, h3, h4, h5, h6, h7] at h
              | some crcB =>
                simp [h1, h2, h3, h4, h5, h6, h7] at h
                split at h <;> simp at h
            | none =>
              rw [sliceGet] at h5
              rw [sliceGetFrom] at h6
              split at h5
              · rename_i hc
                rw [if_pos hc.2] at h6
                simp at h6
              · simp at h5

/-! ## `collectAlphaBytes` lemmas (ChunkType::from_str) -/

theorem collectAlphaBytes_ok_of_all (s : List Nat)
    (h : ∀ c ∈ s, charIsAlphabetic c = true) :
    collectAlphaBytes s = .ok (s.map (· % 256)) := by
  induction s with
  | nil => rfl
  | cons c rest ih =>
    simp only [collectAlphaBytes, if_pos (h c (by simp)),
      ih fun x hx => h x (by simp [hx]), List.map_cons]

theorem collectAlphaBytes_first_bad (pre : List Nat) (c : Nat) (suf : List Nat)
    (hpre : ∀ x ∈ pre, charIsAlphabetic x = true)
    (hc : charIsAlphabetic c = false) :
    collectAlphaBytes (pre ++ c :: suf) = .error (.invalidByte c) := by
  induction pre with
  | nil =>
    simp only [List.nil_append, collectAlphaBytes]
    rw [if_neg (by simp [hc])]
  | cons p pre ih =>
    rw [List.cons_append]
    simp only [collectAlphaBytes, if_pos (hpre p (by simp)),
      ih fun x hx => hpre x (by simp [hx])]

theorem collectAlphaBytes_ok_inv (s : List Nat) (bs : List Nat)
    (h : collectAlphaBytes s = .ok bs) :
    (∀ c ∈ s, charIsAlphabetic c = true) ∧ bs = s.map (· % 256) := by
  induction s generalizing bs with
  | nil =>
    simp only [collectAlphaBytes, Except.ok.injEq] at h
    subst h
    simp
  | cons c rest ih =>
    simp only [collectAlphaBytes] at h
    split at h
    · rename_i halpha
      split at h
      · rename_i bs' hbs'
        rw [Except.ok.injEq] at h
        subst h
        obtain ⟨hall, hmap⟩ := ih bs' hbs'
        refine ⟨?_, by rw [List.map_cons, ← hmap]⟩
        intro x hx
        rcases List.mem_cons.mp hx with rfl | hx
        · exact halpha
        · exact hall x hx
      · simp at h
    · simp at h

theorem collectAlphaBytes_error_inv (s : List Nat) (e : ParseChunkTypeError)
    (h : collectAlphaBytes s = .error e) : ∃ c, e = .invalidByte c := by
  induction s generalizing e with
  | nil => simp [collectAlphaBytes] at h
  | cons c rest ih =>
    simp only [collectAlphaBytes] at h
    split at h
    · split at h
      · simp at h
      · rename_i e' he'
        rw [Except.error.injEq] at h
        subst h
        exact ih e' he'
    · rw [Except.error.injEq] at h
      exact ⟨c, h.symm⟩

theorem chunkTypeFromArr_none (l : List Nat) (h : l.length ≠ 4) :
    chunkTypeFromArr l = none := by
  rcases l with _ | ⟨a, _ | ⟨b, _ | ⟨c, _ | ⟨d, _ | ⟨e, t⟩⟩⟩⟩⟩ <;>
    first
      | rfl
      | exact absurd rfl h

/-! ## The oversized-payload chunk (u32 wrap in `(length + 8) as usize`) -/

theorem hugePayload_length : hugePayload.length = 2 ^ 32 - 8 :=
  List.length_replicate _ _

theorem hugePayload_lt : ∀ x ∈ hugePayload, x < 256 := by
  intro x hx
  rw [List.eq_of_mem_replicate hx]
  omega

theorem rustType_bytes_lt : ∀ x ∈ rustType.bytes, x < 256 := by decide

/-- Generic form of the overflow failure: a chunk built by `Chunk::new`
from a payload of exactly `2 ^ 32 - 8` bytes serializes to a buffer whose
re-parse fails with `MessageNotFound`, because `(length + 8) as usize`
wraps to `0`. -/
theorem new_parse_wrap (ct : ChunkType) (d : List Nat)
    (hct : ∀ x ∈ ct.bytes, x < 256) (hd : ∀ x ∈ d, x < 256)
    (hlen : d.length = 2 ^ 32 - 8) :
    Chunk.try_from (Chunk.new ct d).as_bytes = .error .messageNotFound := by
  have hclen : (Chunk.new ct d).length = 2 ^ 32 - 8 := by
    show d.length % 2 ^ 32 = 2 ^ 32 - 8
    rw [hlen]
    omega
  have hablen : (Chunk.new ct d).as_bytes.length = 2 ^ 32 - 8 + 12 := by
    rw [as_bytes_length]
    show d.length + 12 = 2 ^ 32 - 8 + 12
    rw [hlen]
  have hfrom : fromBeBytes ((Chunk.new ct d).as_bytes.take 4) =
      2 ^ 32 - 8 := by
    rw [as_bytes_take4, hclen, fromBeBytes_u32ToBeBytes _ (by norm_num)]
  exact try_from_msg_missing _ (as_bytes_lt _ hct hd) (by omega)
    (Or.inr (by omega))

/-- Generic form of the overflow failure at the container level. -/
theorem new_seq_wrap (ct : ChunkType) (d : List Nat)
    (hct : ∀ x ∈ ct.bytes, x < 256) (hd : ∀ x ∈ d, x < 256)
    (hlen : d.length = 2 ^ 32 - 8) :
    parseChunkSeq (Chunk.new ct d).as_bytes = .error .messageNotFound := by
  have hclen : (Chunk.new ct d).length = 2 ^ 32 - 8 := by
    show d.length % 2 ^ 32 = 2 ^ 32 - 8
    rw [hlen]
    omega
  have hablen : (Chunk.new ct d).as_bytes.length = 2 ^ 32 - 8 + 12 := by
    rw [as_bytes_length]
    show d.length + 12 = 2 ^ 32 - 8 + 12
    rw [hlen]
  have hfrom : fromBeBytes ((Chunk.new ct d).as_bytes.take 4) =
      2 ^ 32 - 8 := by
    rw [as_bytes_take4, hclen, fromBeBytes_u32ToBeBytes _ (by norm_num)]
  have htake : (Chunk.new ct d).as_bytes.take (2 ^ 32 - 8 + 12) =
      (Chunk.new ct d).as_bytes := by
    rw [← hablen, List.take_length]
  cases hv : (Chunk.new ct d).as_bytes with
  | nil => rw [hv] at hablen; simp at hablen
  | cons b bs =>
    have hcons2 : (b :: bs : List Nat) = (Chunk.new ct d).as_bytes := hv.symm
    rw [parseChunkSeq]
    simp only [hcons2,
      sliceGet_some (Chunk.new ct d).as_bytes 0 4 (by omega) (by omega),
      List.drop_zero, Nat.sub_zero, hfrom, htake,
      new_parse_wrap ct d hct hd hlen]

/-- Generic form of the overflow failure at the `Png` level. -/
theorem png_new_wrap (ct : ChunkType) (d : List Nat)
    (hct : ∀ x ∈ ct.bytes, x < 256) (hd : ∀ x ∈ d, x < 256)
    (hlen : d.length = 2 ^ 32 - 8) :
    Png.try_from (Png.as_bytes ⟨[Chunk.new ct d]⟩) =
      .error (.chunkError .messageNotFound) := by
  show Png.try_from (pngSignature ++
    (List.map Chunk.as_bytes [Chunk.new ct d]).flatten) = _
  rw [List.map_cons, List.map_nil, List.flatten_cons, List.flatten_nil,
    List.append_nil]
  unfold Png.try_from
  rw [if_pos (List.take_left' (show pngSignature.length = 8 from rfl)),
    List.drop_left' (show pngSignature.length = 8 from rfl),
    new_seq_wrap ct d hct hd hlen]

/-! ## Claim theorems -/

/-- **C1** (amended: round-trip requires `data.len() + 8 < 2 ^ 32`; see the
counterexample for the `u32` wrap at `data.len() = 2 ^ 32 - 8`).
Serialization round-trips in both directions: a chunk built by
`Chunk::new` from byte-valued inputs with a payload below the wrap bound
re-parses to itself, and every buffer that parses successfully is
reproduced byte-exactly by `as_bytes` (which then re-parses to the same
chunk, with the same type, payload and crc). -/
theorem chunk_serialization_roundtrip :
    (∀ (ct : ChunkType) (d : List Nat), (∀ x ∈ ct.bytes, x < 256) →
      (∀ x ∈ d, x < 256) → d.length + 8 < 2 ^ 32 →
      Chunk.try_from (Chunk.new ct d).as_bytes = .ok (Chunk.new ct d)) ∧
    (∀ (v : List Nat) (c : Chunk), (∀ x ∈ v, x < 256) →
      Chunk.try_from v = .ok c →
      c.as_bytes = v ∧ Chunk.try_from c.as_bytes = .ok c) := by
  constructor
  · intro ct d hct hd hb
    exact try_from_as_bytes _ (new_wf ct d hct hd hb)
  · intro v c hB h
    have hveq := (try_from_ok_inv v c hB h).2.2.2.1
    exact ⟨hveq.symm, by rw [← hveq]; exact h⟩

/-- Witness for C1 at the `"RuSt"` known vector. -/
theorem chunk_serialization_roundtrip_witness :
    Chunk.try_from (Chunk.new rustType secretMsg).as_bytes =
      .ok (Chunk.new rustType secretMsg) :=
  chunk_serialization_roundtrip.1 rustType secretMsg (by decide) (by decide)
    (by decide)

/-- **C1 counterexample**: for a payload of `2 ^ 32 - 8` bytes (representable
in the `u32` length field), `(length + 8) as usize` wraps to `0` and
re-parsing the serialized chunk fails with `MessageNotFound` instead of
succeeding. -/
theorem chunk_serialization_roundtrip_cex :
    Chunk.try_from (Chunk.new rustType hugePayload).as_bytes =
      .error .messageNotFound :=
  new_parse_wrap rustType hugePayload rustType_bytes_lt hugePayload_lt
    hugePayload_length

/-- **C2** (amended: chunks must satisfy `ChunkWF`, in particular the
`data.len() + 8 < 2 ^ 32` bound; see the counterexample).  Serializing a
container (signature, then each chunk in stored order) and re-parsing
reproduces the container exactly: identical signature, identical ordered
chunk sequence.  The container itself is modelled from the spec, since
src/png.rs is absent from the sources; each chunk is parsed by the real
`Chunk.try_from`. -/
theorem png_serialization_roundtrip (p : Png)
    (h : ∀ c ∈ p.chunks, ChunkWF c) :
    Png.try_from p.as_bytes = .ok p :=
  png_try_from_as_bytes p h

/-- Witness for C2 at a one-chunk container. -/
theorem png_serialization_roundtrip_witness :
    Png.try_from (Png.as_bytes ⟨[Chunk.new rustType secretMsg]⟩) =
      .ok ⟨[Chunk.new rustType secretMsg]⟩ :=
  png_serialization_roundtrip ⟨[Chunk.new rustType secretMsg]⟩ (by decide)

/-- **C2 counterexample**: a container holding a `Chunk::new` chunk with a
`2 ^ 32 - 8`-byte payload serializes to bytes whose re-parse fails. -/
theorem png_serialization_roundtrip_cex :
    Png.try_from (Png.as_bytes ⟨[Chunk.new rustType hugePayload]⟩) =
      .error (.chunkError .messageNotFound) :=
  png_new_wrap rustType hugePayload rustType_bytes_lt hugePayload_lt
    hugePayload_length

/-- **C3** (amended: the known payload is 42 bytes, not 44).  `Chunk::new`
always succeeds (it is a total function in the embedding); the stored
length equals `data.len()` (as a `u32`) and the crc is CRC-32/ISO-HDLC of
the type bytes followed by the payload; for type `"RuSt"` and the secret
payload the crc is `2882656334`. -/
theorem chunk_new_crc :
    (∀ (ct : ChunkType) (d : List Nat), d.length < 2 ^ 32 →
      (Chunk.new ct d).length = d.length ∧
      (Chunk.new ct d).crc = crc32 (ct.bytes ++ d)) ∧
    (Chunk.new rustType secretMsg).crc = 2882656334 :=
  ⟨fun _ _ h => ⟨Nat.mod_eq_of_lt h, rfl⟩, by decide⟩

/-- Witness for C3 at the known vector. -/
theorem chunk_new_crc_witness :
    (Chunk.new rustType secretMsg).length = secretMsg.length ∧
    (Chunk.new rustType secretMsg).crc = crc32 (rustType.bytes ++ secretMsg) :=
  chunk_new_crc.1 rustType secretMsg (by decide)

/-- **C3 counterexample**: the payload
`"This is where your secret message will be!"` is 42 bytes long, not 44
as the claim asserts. -/
theorem chunk_new_crc_cex : secretMsg.length = 42 ∧ secretMsg.length ≠ 44 :=
  ⟨by decide, by decide⟩

/-- **C4**: on a buffer whose length, type, payload and CRC fields all
read successfully, parsing recomputes the CRC over the type bytes
concatenated with the payload and fails with `InvalidCrc` exactly when the
stored CRC differs, returning no chunk. -/
theorem parse_invalid_crc (lenB : List Nat) (t0 t1 t2 t3 : Nat)
    (dat crcB : List Nat) (hlen : lenB.length = 4) (hcrc : crcB.length = 4)
    (hd : fromBeBytes lenB = dat.length) (hL : dat.length + 8 < 2 ^ 32)
    (hne : fromBeBytes crcB ≠ crc32 ([t0, t1, t2, t3] ++ dat)) :
    Chunk.try_from (lenB ++ [t0, t1, t2, t3] ++ dat ++ crcB) =
      .error .invalidCrc := by
  rw [try_from_layout lenB t0 t1 t2 t3 dat crcB hlen hcrc hd hL, if_neg hne]

/-- Witness for C4: the `"RuSt"` known vector carrying crc `2882656333`
instead of `2882656334` fails to parse with `InvalidCrc`. -/
theorem parse_invalid_crc_witness :
    Chunk.try_from (u32ToBeBytes 42 ++ [82, 117, 83, 116] ++ secretMsg ++
      u32ToBeBytes 2882656333) = .error .invalidCrc :=
  parse_invalid_crc (u32ToBeBytes 42) 82 117 83 116 secretMsg
    (u32ToBeBytes 2882656333) rfl rfl (by decide) (by decide) (by decide)

/-- **C5** (amended: when the 4 CRC bytes are truncated the error is
`ParseSliceError` — from the failed `[u8; 4]` slice conversion — not
`CrcNotFound`, which is unreachable on every input).  The other three
truncation stages fail with their stage-specific errors. -/
theorem parse_stage_errors :
    (∀ v : List Nat, v.length < 4 →
      Chunk.try_from v = .error .lengthNotFound) ∧
    (∀ v : List Nat, 4 ≤ v.length → v.length < 8 →
      Chunk.try_from v = .error .chunkTypeNotFound) ∧
    (∀ v : List Nat, (∀ x ∈ v, x < 256) → 8 ≤ v.length →
      v.length < fromBeBytes (v.take 4) + 8 →
      Chunk.try_from v = .error .messageNotFound) ∧
    (∀ v : List Nat, (∀ x ∈ v, x < 256) → v.length < 2 ^ 32 →
      fromBeBytes (v.take 4) + 8 ≤ v.length →
      v.length < fromBeBytes (v.take 4) + 12 →
      Chunk.try_from v = .error .parseSliceError) ∧
    (∀ v : List Nat, Chunk.try_from v ≠ .error .crcNotFound) :=
  ⟨try_from_len_missing, try_from_type_missing,
    fun v hB h8 hs => try_from_msg_missing v hB h8 (Or.inl hs),
    fun v hB hlt hlow hhigh =>
      try_from_crc_slice v hB hlow (by omega) (by omega),
    try_from_ne_crcNotFound⟩

/-- Witness for C5: concrete truncated buffers for each stage. -/
theorem parse_stage_errors_witness :
    Chunk.try_from [0, 0, 0] = .error .lengthNotFound ∧
    Chunk.try_from [0, 0, 0, 0, 82] = .error .chunkTypeNotFound ∧
    Chunk.try_from [0, 0, 0, 5, 82, 117, 83, 116, 1] =
      .error .messageNotFound ∧
    Chunk.try_from [0, 0, 0, 0, 82, 117, 83, 116, 1] =
      .error .parseSliceError ∧
    Chunk.try_from [] ≠ .error .crcNotFound :=
  ⟨parse_stage_errors.1 _ (by decide),
    parse_stage_errors.2.1 _ (by decide) (by decide),
    parse_stage_errors.2.2.1 _ (by decide) (by decide) (by decide),
    parse_stage_errors.2.2.2.1 _ (by decide) (by decide) (by decide)
      (by decide),
    parse_stage_errors.2.2.2.2 []⟩

/-- **C5 counterexample**: a buffer with the CRC bytes entirely missing
(8 bytes: length `0`, type `"RuSt"`) fails with `ParseSliceError`, not
`CrcNotFound` as the claim states. -/
theorem parse_stage_errors_cex :
    Chunk.try_from [0, 0, 0, 0, 82, 117, 83, 116] = .error .parseSliceError ∧
    Chunk.try_from [0, 0, 0, 0, 82, 117, 83, 116] ≠ .error .crcNotFound :=
  ⟨by decide, by decide⟩

/-- **C6** (amended: the character test is Rust's Unicode
`char::is_alphabetic`, not ASCII-alphabetic — e.g. Latin-1 letters such as
`µ` are accepted — and a wrong count fails with `ParseSliceError` from the
`[u8; 4]` conversion, not `InvalidLength`, which is unreachable).
Construction from text succeeds exactly when every character is
alphabetic and there are exactly 4 of them; the first non-alphabetic
character gives `InvalidByte` with that character.  Inputs range over
code points below `0x100`, the range on which `charIsAlphabetic` models
the Unicode property exactly. -/
theorem from_str_validation :
    (∀ s : List Nat, (∀ c ∈ s, c < 256) →
      (∀ c ∈ s, charIsAlphabetic c = true) → s.length = 4 →
      ∃ ct : ChunkType, ChunkType.from_str s = .ok ct ∧
        ct.bytes = s.map (· % 256)) ∧
    (∀ (pre : List Nat) (c : Nat) (suf : List Nat),
      (∀ x ∈ pre ++ c :: suf, x < 256) →
      (∀ x ∈ pre, charIsAlphabetic x = true) →
      charIsAlphabetic c = false →
      ChunkType.from_str (pre ++ c :: suf) = .error (.invalidByte c)) ∧
    (∀ s : List Nat, (∀ c ∈ s, c < 256) →
      (∀ c ∈ s, charIsAlphabetic c = true) → s.length ≠ 4 →
      ChunkType.from_str s = .error .parseSliceError) ∧
    (∀ (s : List Nat) (ct : ChunkType), ChunkType.from_str s = .ok ct →
      (∀ c ∈ s, charIsAlphabetic c = true) ∧ s.length = 4) ∧
    (∀ (s : List Nat) (n : Nat),
      ChunkType.from_str s ≠ .error (.invalidLength n)) := by
  refine ⟨?_, ?_, ?_, ?_, ?_⟩
  · intro s _hdom hall hlen4
    have hmap : (s.map (· % 256)).length = 4 := by
      rw [List.length_map]
      exact hlen4
    obtain ⟨a, b, c, d, hm⟩ := exists_four_of_length_eq _ hmap
    refine ⟨⟨a, b, c, d⟩, ?_, hm.symm⟩
    simp only [ChunkType.from_str, collectAlphaBytes_ok_of_all s hall, hm,
      chunkTypeFromArr_four]
  · intro pre c suf _hdom hpre hc
    simp only [ChunkType.from_str,
      collectAlphaBytes_first_bad pre c suf hpre hc]
  · intro s _hdom hall hne
    have h4 : (s.map (· % 256)).length ≠ 4 := by
      rw [List.length_map]
      exact hne
    simp only [ChunkType.from_str, collectAlphaBytes_ok_of_all s hall,
      chunkTypeFromArr_none (s.map (· % 256)) h4]
  · intro s ct h
    unfold ChunkType.from_str at h
    cases hc : collectAlphaBytes s with
    | error e =>
      simp only [hc] at h
      exact Except.noConfusion h
    | ok bs =>
      simp only [hc] at h
      obtain ⟨hall, hmap⟩ := collectAlphaBytes_ok_inv s bs hc
      refine ⟨hall, ?_⟩
      by_cases h4 : bs.length = 4
      · rw [← List.length_map s (· % 256), ← hmap]
        exact h4
      · simp only [chunkTypeFromArr_none bs h4] at h
        exact Except.noConfusion h
  · intro s n h
    unfold ChunkType.from_str at h
    cases hc : collectAlphaBytes s with
    | error e =>
      obtain ⟨c, rfl⟩ := collectAlphaBytes_error_inv s e hc
      simp only [hc] at h
      simp at h
    | ok bs =>
      simp only [hc] at h
      cases h4 : chunkTypeFromArr bs with
      | none => simp only [h4] at h; simp at h
      | some ct => simp only [h4] at h; simp at h

/-- Witness for C6 at concrete strings: `"RuSt"` succeeds, `"Ru1t"` fails
on the digit, `"RuS"` fails the length check with `ParseSliceError`, a
successful parse certifies its input, and no input yields
`InvalidLength`. -/
theorem from_str_validation_witness :
    (∃ ct : ChunkType, ChunkType.from_str [82, 117, 83, 116] = .ok ct ∧
      ct.bytes = [82, 117, 83, 116].map (· % 256)) ∧
    ChunkType.from_str ([82, 117] ++ 49 :: [116]) =
      .error (.invalidByte 49) ∧
    ChunkType.from_str [82, 117, 83] = .error .parseSliceError ∧
    ((∀ c ∈ [82, 117, 83, 116], charIsAlphabetic c = true) ∧
      ([82, 117, 83, 116] : List Nat).length = 4) ∧
    ChunkType.from_str [] ≠ .error (.invalidLength 0) :=
  ⟨from_str_validation.1 _ (by decide) (by decide) (by decide),
    from_str_validation.2.1 [82, 117] 49 [116] (by decide) (by decide)
      (by decide),
    from_str_validation.2.2.1 _ (by decide) (by decide) (by decide),
    from_str_validation.2.2.2.1 [82, 117, 83, 116] ⟨82, 117, 83, 116⟩
      (by decide),
    from_str_validation.2.2.2.2 [] 0⟩

/-- **C6 counterexample**: `"µµµµ"` (four copies of U+00B5, Unicode
alphabetic but not ASCII alphabetic) is accepted, refuting the
ASCII-alphabetic success condition; and `"RuStA"` (five alphabetic
characters) fails with `ParseSliceError`, not `InvalidLength`. -/
theorem from_str_validation_cex :
    ChunkType.from_str [181, 181, 181, 181] = .ok ⟨181, 181, 181, 181⟩ ∧
    isAsciiUppercase 181 = false ∧ isAsciiLowercase 181 = false ∧
    ChunkType.from_str [82, 117, 83, 116, 65] = .error .parseSliceError ∧
    ChunkType.from_str [82, 117, 83, 116, 65] ≠
      .error (.invalidLength 5) := by
  refine ⟨by decide, by decide, by decide, by decide, by decide⟩

/-- **C7**: the four property bits are exactly the ASCII case of bytes 0-3
(critical, public, reserved-bit-valid from uppercase of bytes 0, 1, 2;
safe-to-copy from lowercase of byte 3), `is_valid` coincides with
`is_reserved_bit_valid`, and the `"RuSt"` / `"RUSt"` vectors evaluate as
the claim states. -/
theorem chunk_type_property_bits :
    (∀ ct : ChunkType,
      (ct.is_critical = true ↔ 65 ≤ ct.t0 ∧ ct.t0 ≤ 90) ∧
      (ct.is_public = true ↔ 65 ≤ ct.t1 ∧ ct.t1 ≤ 90) ∧
      (ct.is_reserved_bit_valid = true ↔ 65 ≤ ct.t2 ∧ ct.t2 ≤ 90) ∧
      (ct.is_safe_to_copy = true ↔ 97 ≤ ct.t3 ∧ ct.t3 ≤ 122) ∧
      ct.is_valid = ct.is_reserved_bit_valid) ∧
    (rustType.is_critical = true ∧ rustType.is_public = false ∧
      rustType.is_reserved_bit_valid = true ∧
      rustType.is_safe_to_copy = true ∧ rustType.is_valid = true) ∧
    ChunkType.is_public ⟨82, 85, 83, 116⟩ = true := by
  refine ⟨fun ct => ⟨?_, ?_, ?_, ?_, rfl⟩, by decide, by decide⟩
  all_goals
    simp [ChunkType.is_critical, ChunkType.is_public,
      ChunkType.is_reserved_bit_valid, ChunkType.is_safe_to_copy,
      isAsciiUppercase, isAsciiLowercase]

/-- **C8**: for chunks from `Chunk::new` (payload length within `u32`) and
from successful parses, the `length()` accessor recomputes the live
payload byte count, the `crc()` accessor recomputes the checksum over
`type ++ data`, and the stored crc equals that recomputed checksum. -/
theorem chunk_accessors :
    (∀ (ct : ChunkType) (d : List Nat), d.length < 2 ^ 32 →
      (Chunk.new ct d).lengthAccessor = d.length ∧
      (Chunk.new ct d).crcAccessor = crc32 (ct.bytes ++ d) ∧
      (Chunk.new ct d).crc = (Chunk.new ct d).crcAccessor) ∧
    (∀ (v : List Nat) (c : Chunk), (∀ x ∈ v, x < 256) →
      Chunk.try_from v = .ok c →
      c.lengthAccessor = c.data.length ∧
      c.crcAccessor = crc32 (c.chunk_type.bytes ++ c.data) ∧
      c.crc = c.crcAccessor) := by
  constructor
  · intro ct d h
    exact ⟨Nat.mod_eq_of_lt h, rfl, rfl⟩
  · intro v c hB h
    obtain ⟨_, hbound, _, _, hcrc⟩ := try_from_ok_inv v c hB h
    exact ⟨Nat.mod_eq_of_lt (by omega), rfl, hcrc⟩

/-- Witness for C8 at the known vector, both construction paths. -/
theorem chunk_accessors_witness :
    ((Chunk.new rustType secretMsg).lengthAccessor = secretMsg.length ∧
      (Chunk.new rustType secretMsg).crcAccessor =
        crc32 (rustType.bytes ++ secretMsg) ∧
      (Chunk.new rustType secretMsg).crc =
        (Chunk.new rustType secretMsg).crcAccessor) ∧
    (knownChunk.lengthAccessor = knownChunk.data.length ∧
      knownChunk.crcAccessor =
        crc32 (knownChunk.chunk_type.bytes ++ knownChunk.data) ∧
      knownChunk.crc = knownChunk.crcAccessor) :=
  ⟨chunk_accessors.1 rustType secretMsg (by decide),
    chunk_accessors.2 knownVector knownChunk (by decide) (by decide)⟩

/-- **C9**: flipping any single bit (bit `k` of the byte at index
`pre.length`, replacing `x` by `x ^^^ 2 ^ k`) within the chunk-type or
payload region (byte indices `4 ≤ i < 8 + data.len()`) of a successfully
parsed chunk's serialized bytes, while keeping the stored CRC field
unchanged, makes parsing fail with `InvalidCrc`. -/
theorem crc_bit_flip (v : List Nat) (c : Chunk) (hB : ∀ x ∈ v, x < 256)
    (h : Chunk.try_from v = .ok c) (pre : List Nat) (x : Nat)
    (suf : List Nat) (k : Nat) (hk : k < 8) (hvpx : v = pre ++ x :: suf)
    (hi4 : 4 ≤ pre.length) (hi : pre.length < 8 + c.data.length) :
    Chunk.try_from (pre ++ (x ^^^ 2 ^ k) :: suf) = .error .invalidCrc := by
  obtain ⟨hlen, hbound, hvlen, hveq, hcrc⟩ := try_from_ok_inv v c hB h
  obtain ⟨hctB, hdatB, _, _, _⟩ := ok_wf v c hB h
  have hclt : c.length < 2 ^ 32 := by omega
  have hcrclt : c.crc < 2 ^ 32 := by
    rw [hcrc]
    refine crc32_lt _ fun y hy => ?_
    rcases List.mem_append.mp hy with hy | hy
    · exact hctB y hy
    · exact hdatB y hy
  have hMlen : (c.chunk_type.bytes ++ c.data).length = 4 + c.data.length := by
    rw [List.length_append, chunkType_bytes_length]
  have hjle : pre.length - 4 ≤ (c.chunk_type.bytes ++ c.data).length := by
    omega
  have hv2 : v = u32ToBeBytes c.length ++
      ((c.chunk_type.bytes ++ c.data) ++ u32ToBeBytes c.crc) := by
    rw [hveq]
    simp [Chunk.as_bytes, List.append_assoc]
  have h1 : pre = v.take pre.length := by
    rw [hvpx, List.take_left' rfl]
  have h2 : v.take pre.length = u32ToBeBytes c.length ++
      (c.chunk_type.bytes ++ c.data).take (pre.length - 4) := by
    rw [hv2, List.take_append_eq_append_take,
      List.take_of_length_le (by rw [u32ToBeBytes_length]; exact hi4),
      u32ToBeBytes_length, List.take_append_of_le_length hjle]
  have hpre2 := h1.trans h2
  have h3 : (x :: suf : List Nat) = v.drop pre.length := by
    rw [hvpx, List.drop_left' rfl]
  have h4 : v.drop pre.length =
      (c.chunk_type.bytes ++ c.data).drop (pre.length - 4) ++
        u32ToBeBytes c.crc := by
    rw [hv2, List.drop_append_eq_append_drop,
      List.drop_eq_nil_of_le (by rw [u32ToBeBytes_length]; exact hi4),
      List.nil_append, u32ToBeBytes_length,
      List.drop_append_of_le_length hjle]
  have hdrop2 := h3.trans h4
  cases hMd : (c.chunk_type.bytes ++ c.data).drop (pre.length - 4) with
  | nil =>
    exfalso
    have hdl := congrArg List.length hMd
    rw [List.length_drop, hMlen] at hdl
    simp only [List.length_nil] at hdl
    omega
  | cons y ys =>
    have hdl := congrArg List.length hMd
    rw [List.length_drop, hMlen] at hdl
    simp only [List.length_cons] at hdl
    rw [hMd, List.cons_append] at hdrop2
    have hxy : x = y ∧ suf = ys ++ u32ToBeBytes c.crc := by
      simpa using hdrop2
    obtain ⟨hxy, hsuf⟩ := hxy
    subst hxy
    have hMsplit : c.chunk_type.bytes ++ c.data =
        (c.chunk_type.bytes ++ c.data).take (pre.length - 4) ++ x :: ys := by
      conv_lhs =>
        rw [← List.take_append_drop (pre.length - 4)
          (c.chunk_type.bytes ++ c.data)]
      rw [hMd]
    have hmidlen : ((c.chunk_type.bytes ++ c.data).take (pre.length - 4) ++
        (x ^^^ 2 ^ k) :: ys).length = 4 + c.data.length := by
      rw [List.length_append, List.length_take_of_le hjle, List.length_cons]
      omega
    have hflip : pre ++ (x ^^^ 2 ^ k) :: suf =
        u32ToBeBytes c.length ++
          ((c.chunk_type.bytes ++ c.data).take (pre.length - 4) ++
            (x ^^^ 2 ^ k) :: ys) ++ u32ToBeBytes c.crc := by
      conv_lhs => rw [hpre2, hsuf]
      simp [List.append_assoc]
    rw [hflip]
    refine try_from_layout_mid_ne _ _ _ (u32ToBeBytes_length _)
      (u32ToBeBytes_length _) (by rw [hmidlen]; omega) ?_ ?_ ?_
    · rw [fromBeBytes_u32ToBeBytes _ hclt, hmidlen]
      omega
    · rw [hmidlen]
      omega
    · rw [fromBeBytes_u32ToBeBytes _ hcrclt, hcrc]
      conv_lhs => rw [hMsplit]
      exact crc32_flip_ne _ ys x k (by omega)

/-- Witness for C9: flipping bit 0 of the first type byte (`'R'`,
index 4) of the serialized empty-payload `"RuSt"` chunk, stored CRC
unchanged, yields `InvalidCrc`. -/
theorem crc_bit_flip_witness :
    Chunk.try_from ([0, 0, 0, 0] ++ (82 ^^^ 2 ^ 0) ::
      ([117, 83, 116] ++ u32ToBeBytes 3565422908)) = .error .invalidCrc :=
  crc_bit_flip ([0, 0, 0, 0] ++ 82 :: ([117, 83, 116] ++
      u32ToBeBytes 3565422908))
    ⟨⟨82, 117, 83, 116⟩, [], 0, 3565422908⟩ (by decide) (by decide)
    [0, 0, 0, 0] 82 ([117, 83, 116] ++ u32ToBeBytes 3565422908) 0
    (by decide) rfl (by decide) (by decide)

/-- **C10**: parsing accepts a buffer only at the exact size `12 + L`
(where `L` is the declared big-endian length field): every successful
parse has that exact input length, and any buffer with bytes after the
4-byte CRC field (length exceeding `12 + L`) is rejected with an error. -/
theorem parse_exact_length (v : List Nat) (hB : ∀ x ∈ v, x < 256) :
    (∀ c : Chunk, Chunk.try_from v = .ok c →
      v.length = 12 + fromBeBytes (v.take 4)) ∧
    (fromBeBytes (v.take 4) + 12 < v.length →
      ∃ e, Chunk.try_from v = .error e) := by
  have key : ∀ c : Chunk, Chunk.try_from v = .ok c →
      v.length = 12 + fromBeBytes (v.take 4) := by
    intro c h
    obtain ⟨hlen, hbound, hvlen, hveq, _⟩ := try_from_ok_inv v c hB h
    have ht : fromBeBytes (v.take 4) = c.data.length := by
      rw [hveq, as_bytes_take4, fromBeBytes_u32ToBeBytes _ (by omega)]
      exact hlen
    omega
  refine ⟨key, ?_⟩
  intro hgt
  cases hres : Chunk.try_from v with
  | error e => exact ⟨e, rfl⟩
  | ok c =>
    have := key c hres
    omega

/-- Witness for C10: the known vector parses at its exact length, and the
same vector with one trailing byte is rejected. -/
theorem parse_exact_length_witness :
    knownVector.length = 12 + fromBeBytes (knownVector.take 4) ∧
    (∃ e, Chunk.try_from (knownVector ++ [0]) = .error e) :=
  ⟨(parse_exact_length knownVector (by decide)).1 knownChunk (by decide),
    (parse_exact_length (knownVector ++ [0]) (by decide)).2 (by decide)⟩

end Pngme
